import Mathlib

/-!
Verification of the kube-checker pipeline (src/main.rs): shallow embedding of
the record type `ExtractedAndTaggedObject`, the aggregation `agg_and_sort`,
the quantity parser `convert_quantity_to_int`, the extraction functions
`extract_containers_and_info` / `process_pod`, and the run-level result
collection in `main`, together with theorems about the frozen claims.
-/

/-- Rational addition written with `Rat.divInt` so that it evaluates inside
the kernel (the library's `Rat.add` is irreducible); `qadd_eq` proves it is
ordinary addition on `ℚ`. -/
def qadd (a b : ℚ) : ℚ :=
  Rat.divInt (a.num * (b.den : ℤ) + b.num * (a.den : ℤ)) ((a.den : ℤ) * (b.den : ℤ))

/-- Kernel-reducible rational multiplication; see `qmul_eq`. -/
def qmul (a b : ℚ) : ℚ :=
  Rat.divInt (a.num * b.num) ((a.den : ℤ) * (b.den : ℤ))

/-- Kernel-reducible rational division; see `qdiv_eq`. -/
def qdiv (a b : ℚ) : ℚ :=
  Rat.divInt (a.num * (b.den : ℤ)) ((a.den : ℤ) * b.num)

/-- Kernel-reducible rational negation; see `qneg_eq`. -/
def qneg (a : ℚ) : ℚ :=
  Rat.divInt (-a.num) (a.den : ℤ)

/-- Kernel-reducible decision of `a ≤ b` on `ℚ`; see `qleb_eq`. -/
def qleb (a b : ℚ) : Bool :=
  decide (a.num * (b.den : ℤ) ≤ b.num * (a.den : ℤ))

/-- Kernel-reducible three-way comparison on `ℚ`, agreeing with `compare`
on every pair (see `qcmp_lt_or`); models the `Ordering` Rust's
`partial_cmp` yields on two non-NaN floats. -/
def qcmp (a b : ℚ) : Ordering :=
  if qleb a b then (if qleb b a then .eq else .lt) else .gt

/-- Models Rust `f32` values as they occur in this pipeline: finite values are
kept as exact rationals and NaN is explicit.  Infinities and rounding to the
nearest representable float are not modelled: no pipeline input of any claim
produces them, and every numeric constant appearing in the claims
(400, 2, 1000, 0.4, ...) is exactly representable in `f32`. -/
inductive F32 where
  | nan : F32
  | num : ℚ → F32
deriving DecidableEq, Repr

/-- Rust `f32` addition: NaN propagates, finite values add exactly. -/
def F32.add : F32 → F32 → F32
  | num a, num b => num (qadd a b)
  | _, _ => nan

/-- Rust `f32` multiplication: NaN propagates, finite values multiply exactly. -/
def F32.mul : F32 → F32 → F32
  | num a, num b => num (qmul a b)
  | _, _ => nan

/-- Rust `f32` division as used in the pipeline (the divisor is always the
constant `1000.0`): NaN propagates, finite values divide exactly. -/
def F32.div : F32 → F32 → F32
  | num a, num b => num (qdiv a b)
  | _, _ => nan

/-- Rust `f32::partial_cmp`: `none` exactly when one operand is NaN. -/
def F32.cmpOpt : F32 → F32 → Option Ordering
  | num a, num b => some (qcmp a b)
  | _, _ => none

/-- Boolean comparison used by the deterministic sort model below.  On
non-NaN operands it agrees with `partial_cmp`-based `≤`; on NaN operands the
source comparator panics instead (see the C8 theorems), so the value chosen
here (`true`) is only a total-function stand-in. -/
def F32.leb : F32 → F32 → Bool
  | num a, num b => qleb a b
  | _, _ => true

theorem qadd_eq (a b : ℚ) : qadd a b = a + b := by
  have ha : ((a.den : ℤ) : ℚ) ≠ 0 := by
    exact_mod_cast a.den_ne_zero
  have hb : ((b.den : ℤ) : ℚ) ≠ 0 := by
    exact_mod_cast b.den_ne_zero
  rw [qadd, Rat.divInt_eq_div]
  push_cast
  conv_rhs => rw [← Rat.num_div_den a, ← Rat.num_div_den b]
  field_simp

theorem qmul_eq (a b : ℚ) : qmul a b = a * b := by
  have ha : ((a.den : ℤ) : ℚ) ≠ 0 := by
    exact_mod_cast a.den_ne_zero
  have hb : ((b.den : ℤ) : ℚ) ≠ 0 := by
    exact_mod_cast b.den_ne_zero
  rw [qmul, Rat.divInt_eq_div]
  push_cast
  conv_rhs => rw [← Rat.num_div_den a, ← Rat.num_div_den b]
  field_simp

theorem qdiv_eq (a b : ℚ) : qdiv a b = a / b := by
  have ha : ((a.den : ℤ) : ℚ) ≠ 0 := by
    exact_mod_cast a.den_ne_zero
  rcases eq_or_ne b 0 with rfl | hb0
  · simp [qdiv, Rat.divInt_eq_div]
  · have hbn : (b.num : ℚ) ≠ 0 := by
      exact_mod_cast Rat.num_ne_zero.2 hb0
    have hb : ((b.den : ℤ) : ℚ) ≠ 0 := by
      exact_mod_cast b.den_ne_zero
    rw [qdiv, Rat.divInt_eq_div]
    push_cast
    conv_rhs => rw [← Rat.num_div_den a, ← Rat.num_div_den b]
    rw [div_div_div_eq]

theorem qneg_eq (a : ℚ) : qneg a = -a := by
  have ha : ((a.den : ℤ) : ℚ) ≠ 0 := by
    exact_mod_cast a.den_ne_zero
  rw [qneg, Rat.divInt_eq_div]
  push_cast
  conv_rhs => rw [← Rat.num_div_den a]
  field_simp

theorem qleb_eq (a b : ℚ) : qleb a b = decide (a ≤ b) := by
  have h : (a ≤ b) ↔ (a.num * (b.den : ℤ) ≤ b.num * (a.den : ℤ)) := by
    conv_lhs => rw [← Rat.num_divInt_den a, ← Rat.num_divInt_den b]
    exact Rat.divInt_le_divInt (by exact_mod_cast a.den_pos) (by exact_mod_cast b.den_pos)
  simp [qleb, h]

instance : Add F32 := ⟨F32.add⟩
instance : Zero F32 := ⟨F32.num 0⟩

theorem F32.add_def (a b : F32) : a + b = F32.add a b := rfl

theorem F32.zero_def : (0 : F32) = F32.num 0 := rfl

theorem F32.num_add (a b : ℚ) : F32.num a + F32.num b = F32.num (a + b) := by
  simp [F32.add_def, F32.add, qadd_eq]

theorem F32.nan_add (b : F32) : F32.nan + b = F32.nan := rfl

theorem F32.add_nan (a : F32) : a + F32.nan = F32.nan := by
  cases a <;> rfl

instance : AddCommMonoid F32 where
  add_assoc a b c := by
    cases a <;> cases b <;> cases c <;>
      simp [F32.add_def, F32.add, qadd_eq, add_assoc]
  zero_add a := by
    cases a <;> simp [F32.zero_def, F32.add_def, F32.add, qadd_eq]
  add_zero a := by
    cases a <;> simp [F32.zero_def, F32.add_def, F32.add, qadd_eq]
  add_comm a b := by
    cases a <;> cases b <;> simp [F32.add_def, F32.add, qadd_eq, add_comm]
  nsmul := nsmulRec

/-- Record type of src/main.rs (struct `ExtractedAndTaggedObject`). -/
structure ExtractedAndTaggedObject where
  object_name : String
  «namespace» : String
  type_of : String
  containers : String
  node_selectors : String
  node_selector_check : Bool
  qos_check : Bool
  image_check : Bool
  image_url : String
  total_cores : F32
  total_items : Int
deriving DecidableEq, Repr

/-- Models Rust `str::split('|')` on the underlying character list: the
maximal `'|'`-free segments, including empty ones (`"".split('|')` is
`[""]`, matching Rust). -/
def splitCh : List Char → List (List Char)
  | [] => [[]]
  | c :: rest =>
    match splitCh rest with
    | h :: t => if c = '|' then [] :: h :: t else (c :: h) :: t
    | [] => [[]]

/-- Models Rust `Vec::join("|")` / `[&str]::join("|")` on character lists. -/
def barJoinCh : List (List Char) → List Char
  | [] => []
  | [p] => p
  | p :: q :: rest => p ++ '|' :: barJoinCh (q :: rest)

/-- Rust `str::split('|')` lifted to `String`. -/
def splitBar (s : String) : List String :=
  (splitCh s.data).map (fun l => String.mk l)

/-- Rust `[String]::join("|")` lifted to `String`. -/
def barJoin (ps : List String) : String :=
  String.mk (barJoinCh (ps.map String.data))

/-- One `HashSet::insert`: models insertion into the set, appending at the
end when the element is new (a deterministic stand-in for the unspecified
hash iteration order). -/
def dedupAppend (acc : List String) (s : String) : List String :=
  if s ∈ acc then acc else acc ++ [s]

/-- Models `HashSet::from_iter`: deduplicates, keeping first occurrences. -/
def hashSetList (l : List String) : List String :=
  l.foldl dedupAppend []

/-- Merge step of `agg_and_sort` (the body of the `if let Some(inside)`
branch, src/main.rs lines 242-250): sums `total_items` and `total_cores`,
splits the stored record's `containers` on `'|'` into a hash set, inserts
the incoming record's `containers` string as one element, rejoins with
`"|"`; every other field is kept from the stored record. -/
def mergeObj (inside x : ExtractedAndTaggedObject) : ExtractedAndTaggedObject :=
  { inside with
    total_items := inside.total_items + x.total_items
    total_cores := inside.total_cores + x.total_cores
    containers := barJoin (dedupAppend (hashSetList (splitBar inside.containers)) x.containers) }

/-- `HashMap::get` on the association-list model of the aggregation map. -/
def getEntry : List (String × ExtractedAndTaggedObject) → String → Option ExtractedAndTaggedObject
  | [], _ => none
  | (k, v) :: rest, key => if k = key then some v else getEntry rest key

/-- `HashMap::insert` for a key already present: replaces the stored value. -/
def setEntry : List (String × ExtractedAndTaggedObject) → String → ExtractedAndTaggedObject →
    List (String × ExtractedAndTaggedObject)
  | [], key, v => [(key, v)]
  | (k, w) :: rest, key, v =>
    if k = key then (k, v) :: rest else (k, w) :: setEntry rest key v

/-- One iteration of the fold in `agg_and_sort` (src/main.rs lines 239-255). -/
def aggStep (function : ExtractedAndTaggedObject → String)
    (acc : List (String × ExtractedAndTaggedObject)) (x : ExtractedAndTaggedObject) :
    List (String × ExtractedAndTaggedObject) :=
  match getEntry acc (function x) with
  | some inside => setEntry acc (function x) (mergeObj inside x)
  | none => acc ++ [(function x, x)]

/-- The aggregation map built by the fold in `agg_and_sort`, modelling the
`HashMap` as an association list in first-insertion order (the source map's
iteration order is unspecified). -/
def aggFold (function : ExtractedAndTaggedObject → String)
    (input_vec : List ExtractedAndTaggedObject) : List (String × ExtractedAndTaggedObject) :=
  input_vec.foldl (aggStep function) []

/-- One step of the descending insertion sort modelling
`par_sort_unstable_by(|a, b| b.total_cores.partial_cmp(&a.total_cores).unwrap())`:
deterministic stand-in producing a descending-by-`total_cores` permutation
(the source's unstable sort leaves tie order unspecified; on NaN it panics,
see the C8 theorems). -/
def insertDesc (r : ExtractedAndTaggedObject) :
    List ExtractedAndTaggedObject → List ExtractedAndTaggedObject
  | [] => [r]
  | h :: t =>
    if F32.leb h.total_cores r.total_cores then r :: h :: t else h :: insertDesc r t

/-- Descending-by-`total_cores` sort (see `insertDesc`). -/
def sortDesc : List ExtractedAndTaggedObject → List ExtractedAndTaggedObject
  | [] => []
  | h :: t => insertDesc h (sortDesc t)

/-- `agg_and_sort` of src/main.rs lines 234-261: fold the input into a
key-to-record map, take the values, sort descending by `total_cores`. -/
def agg_and_sort (input_vec : List ExtractedAndTaggedObject)
    (function : ExtractedAndTaggedObject → String) : List ExtractedAndTaggedObject :=
  sortDesc ((aggFold function input_vec).map Prod.snd)

/-- `extract_container_level_key` of src/main.rs lines 222-227
(`format!("{}-{}-{}-{}", ...)`). -/
def extract_container_level_key (x : ExtractedAndTaggedObject) : String :=
  x.object_name ++ "-" ++ x.«namespace» ++ "-" ++ x.type_of ++ "-" ++ x.containers

/-- `extract_object_level_key` of src/main.rs lines 230-232
(`format!("{}-{}-{}", ...)`). -/
def extract_object_level_key (x : ExtractedAndTaggedObject) : String :=
  x.object_name ++ "-" ++ x.«namespace» ++ "-" ++ x.type_of

/-- The sort-then-filter stage of `main` (src/main.rs lines 116-131): sort
descending by `total_cores`; when `disable_filter` is false (the clap
default) retain only records failing at least one compliance check, when
true retain all. -/
def rank_and_filter (l : List ExtractedAndTaggedObject) (disable_filter : Bool) :
    List ExtractedAndTaggedObject :=
  let sorted := sortDesc l
  if disable_filter then sorted
  else sorted.filter (fun x => !x.image_check || !x.node_selector_check || !x.qos_check)

/-- Rust `str::contains(char)` via the underlying character list. -/
def containsChar (s : String) (c : Char) : Bool :=
  s.data.contains c

/-- Rust `str::replace(char, "")`: removes every occurrence of the character. -/
def removeChar (s : String) (c : Char) : String :=
  String.mk (s.data.filter (fun a => a ≠ c))

/-- Longest digit prefix of a character list, with the remainder. -/
def takeDigits : List Char → List Char × List Char
  | [] => ([], [])
  | c :: rest =>
    if c.isDigit then
      let (d, r) := takeDigits rest
      (c :: d, r)
    else ([], c :: rest)

/-- Numeric value of a digit list (most significant first). -/
def digitsToNat (l : List Char) : ℕ :=
  l.foldl (fun n c => 10 * n + (c.toNat - 48)) 0

/-- Optional exponent suffix `e`/`E` followed by an optionally signed
non-empty digit string; `some 0` when absent, `none` when malformed. -/
def parseExpPart : List Char → Option ℤ
  | [] => some 0
  | c :: rest =>
    if c = 'e' ∨ c = 'E' then
      match rest with
      | '+' :: ds => if ds ≠ [] ∧ ds.all Char.isDigit then some (digitsToNat ds) else none
      | '-' :: ds => if ds ≠ [] ∧ ds.all Char.isDigit then some (-(digitsToNat ds : ℤ)) else none
      | ds => if ds ≠ [] ∧ ds.all Char.isDigit then some (digitsToNat ds) else none
    else none

/-- `10 ^ e` for an integer exponent, written with `mkRat` so that it
evaluates inside the kernel. -/
def qpow10 : ℤ → ℚ
  | Int.ofNat n => mkRat ((10 ^ n : ℕ) : ℤ) 1
  | Int.negSucc n => mkRat 1 (10 ^ (n + 1))

/-- Unsigned decimal mantissa with optional fraction, then optional
exponent: the value as an exact rational (`digits.fracdigits × 10^e`), or
`none` when malformed. -/
def parseMantissa (l : List Char) : Option ℚ :=
  let (ip, r1) := takeDigits l
  match r1 with
  | '.' :: r2 =>
    let (fp, r3) := takeDigits r2
    if ip = [] ∧ fp = [] then none
    else
      (parseExpPart r3).map (fun e =>
        qmul (mkRat ((digitsToNat ip * 10 ^ fp.length + digitsToNat fp : ℕ) : ℤ) (10 ^ fp.length))
          (qpow10 e))
  | _ =>
    if ip = [] then none
    else (parseExpPart r1).map (fun e => qmul (mkRat ((digitsToNat ip : ℕ) : ℤ) 1) (qpow10 e))

/-- Models Rust `str::parse::<f32>` (`f32::from_str`), restricted to the
forms the claims exercise: an optional sign, then either a NaN literal
(case-insensitive `nan`, which Rust parses successfully as a float) or a
finite decimal mantissa with optional exponent, kept as an exact rational.
Infinity literals and rounding to the nearest `f32` are not modelled (no
claim depends on them). -/
def parseF32 (s : String) : Option F32 :=
  let body : List Char → Bool → Option F32 := fun l neg =>
    if l.map Char.toLower = ['n', 'a', 'n'] then some F32.nan
    else (parseMantissa l).map (fun q => F32.num (if neg then qneg q else q))
  match s.data with
  | '+' :: rest => body rest false
  | '-' :: rest => body rest true
  | l => body l false

/-- `convert_quantity_to_int` of src/main.rs lines 263-279: a string
containing `'m'` is stripped of it and parsed with no scaling; otherwise a
string containing `'g'` is stripped of it, parsed, and multiplied by 1000;
otherwise the whole string is parsed and multiplied by 1000.  Parse
failures carry the original string in the error message. -/
def convert_quantity_to_int (quantity : String) : Except String F32 :=
  if containsChar quantity 'm' then
    match parseF32 (removeChar quantity 'm') with
    | some v => .ok v
    | none => .error ("Failed to parse " ++ quantity ++ " as int")
  else if containsChar quantity 'g' then
    match parseF32 (removeChar quantity 'g') with
    | some v => .ok (v.mul (F32.num 1000))
    | none => .error ("Failed to parse " ++ quantity ++ " as int")
  else
    match parseF32 quantity with
    | some v => .ok (v.mul (F32.num 1000))
    | none => .error ("Failed to parse " ++ quantity ++ " as int")

/-- Whether the first list is a prefix of the second (on characters). -/
def isPrefixCh : List Char → List Char → Bool
  | [], _ => true
  | _ :: _, [] => false
  | a :: as, b :: bs => a = b && isPrefixCh as bs

/-- Models Rust `str::contains(&str)`: the needle occurs as a contiguous
substring of the haystack. -/
def containsSub (hay needle : List Char) : Bool :=
  match hay with
  | [] => needle.isEmpty
  | _ :: rest => isPrefixCh needle hay || containsSub rest needle

/-- `is_ecr_image` of src/main.rs lines 342-344 (substring test). -/
def is_ecr_image (image : String) : Bool :=
  containsSub image.data "amazonaws.com/".data

/-- `is_hosted_image` of src/main.rs lines 347-349 (substring tests). -/
def is_hosted_image (image : String) : Bool :=
  containsSub image.data "gcr.io".data || containsSub image.data "quay.io".data ||
    containsSub image.data "ghcr.io".data

/-- Outcome of a fallible Rust computation, with panics (`unwrap`/`expect`
on a missing value) distinguished from `Result::Err`. -/
inductive RustResult (α : Type) where
  | panicked : RustResult α
  | err : String → RustResult α
  | ok : α → RustResult α
deriving DecidableEq, Repr

/-- Rust `Result::map` (panics pass through untouched). -/
def RustResult.mapR (f : α → β) : RustResult α → RustResult β
  | .panicked => .panicked
  | .err e => .err e
  | .ok a => .ok (f a)

/-- Whether the computation succeeded. -/
def RustResult.isOk : RustResult α → Bool
  | .ok _ => true
  | _ => false

/-- Whether the computation returned `Result::Err` (a panic is not an `Err`). -/
def RustResult.isErr : RustResult α → Bool
  | .err _ => true
  | _ => false

/-- `Except.isErr` for the quantity parser's result. -/
def Except.isErrE : Except String F32 → Bool
  | .error _ => true
  | .ok _ => false

/-- `k8s_openapi` `ResourceRequirements`, keeping the fields the source
reads; the `BTreeMap<String, Quantity>` maps become association lists. -/
structure ResourceRequirements where
  limits : Option (List (String × String))
  requests : Option (List (String × String))
deriving DecidableEq, Repr

/-- `k8s_openapi` `Container`, keeping the fields the source reads. -/
structure Container where
  name : String
  image : Option String
  resources : Option ResourceRequirements
deriving DecidableEq, Repr

/-- `k8s_openapi` `PodSpec`, keeping the fields the source reads. -/
structure PodSpec where
  containers : List Container
  node_selector : Option (List (String × String))
deriving DecidableEq, Repr

/-- `k8s_openapi` `ObjectMeta`, keeping the fields the source reads;
`owner_references` keeps only each reference's `name`. -/
structure ObjectMeta where
  name : Option String
  «namespace» : Option String
  owner_references : Option (List String)
deriving DecidableEq, Repr

/-- `k8s_openapi` `Pod`, keeping the fields the source reads. -/
structure Pod where
  metadata : ObjectMeta
  spec : Option PodSpec
deriving DecidableEq, Repr

/-- `BTreeMap::get` on the association-list model. -/
def mapGet : List (String × String) → String → Option String
  | [], _ => none
  | (k, v) :: rest, key => if k = key then some v else mapGet rest key

/-- Rust `format!("{:?}", node_selector)` for a `BTreeMap<String, String>`
(the `Debug` rendering `{"k": "v", ...}`). -/
def formatMap (m : List (String × String)) : String :=
  "\x7b" ++ String.intercalate ", " (m.map (fun p => "\"" ++ p.1 ++ "\": \"" ++ p.2 ++ "\"")) ++ "\x7d"

/-- The per-container closure of `extract_containers_and_info`
(src/main.rs lines 299-337): `container.image.unwrap()` panics when the
image is missing; a CPU-quantity parse failure is an `Err`; otherwise the
record is built with `total_cores = parsed * replicas / 1000.0`. -/
def extractOne (name ns type_of : String) (node_selector_check : Bool)
    (node_selectors : String) (replicas : Int) (container : Container) :
    RustResult ExtractedAndTaggedObject :=
  match container.image with
  | none => .panicked
  | some image =>
    let image_check := is_ecr_image image || is_hosted_image image
    let qos_check := match container.resources with
      | some resource => resource.requests.isSome
      | none => false
    let cpu_request : Except String F32 :=
      match container.resources with
      | some resource =>
        match resource.requests with
        | some requests =>
          match mapGet requests "cpu" with
          | some inside => convert_quantity_to_int inside
          | none => .ok (F32.num 0)
        | none => .ok (F32.num 0)
      | none => .ok (F32.num 0)
    match cpu_request with
    | .ok inside =>
      .ok { object_name := name
            «namespace» := ns
            type_of := type_of
            containers := container.name
            node_selectors := node_selectors
            node_selector_check := node_selector_check
            qos_check := qos_check
            image_check := image_check
            image_url := image
            total_cores := F32.div (F32.mul inside (F32.num (replicas : ℚ))) (F32.num 1000)
            total_items := replicas }
    | .error e => .err e

/-- The `map(...).collect::<Result<Vec<_>>>()` loop over the containers:
stops at the first failing container, and a panic interrupts everything. -/
def extractList (name ns type_of : String) (node_selector_check : Bool)
    (node_selectors : String) (replicas : Int) :
    List Container → RustResult (List ExtractedAndTaggedObject)
  | [] => .ok []
  | c :: rest =>
    match extractOne name ns type_of node_selector_check node_selectors replicas c with
    | .ok o =>
      match extractList name ns type_of node_selector_check node_selectors replicas rest with
      | .ok l => .ok (o :: l)
      | .err e => .err e
      | .panicked => .panicked
    | .err e => .err e
    | .panicked => .panicked

/-- `extract_containers_and_info` of src/main.rs lines 281-340. -/
def extract_containers_and_info (name ns type_of : String) (pod_spec : PodSpec)
    (replicas : Int) : RustResult (List ExtractedAndTaggedObject) :=
  let node_selector_check := pod_spec.node_selector.isSome
  let node_selectors := match pod_spec.node_selector with
    | some node_selector => formatMap node_selector
    | none => "None"
  extractList name ns type_of node_selector_check node_selectors replicas pod_spec.containers

/-- `process_pod` of src/main.rs lines 164-197: a missing pod name is
defaulted to `"no_pod_name"`; a missing pod spec or namespace is an `Err`;
the object name is the `'|'`-joined owner-reference names, or
`"pod:<name>"` when there are no owner references. -/
def process_pod (pod : Pod) : RustResult (List ExtractedAndTaggedObject) :=
  let pod_name := pod.metadata.name.getD "no_pod_name"
  match pod.spec with
  | none => .err ("No pod spec for pod " ++ pod_name)
  | some pod_spec =>
    match pod.metadata.«namespace» with
    | none => .err ("No namespace for pod " ++ pod_name)
    | some ns =>
      let owners : String :=
        match pod.metadata.owner_references with
        | some references => barJoin references
        | none => "pod:" ++ pod_name
      extract_containers_and_info owners ns "pod" pod_spec 1

/-- Rust `collect::<Result<Vec<_>>>` over a list of results: the first
failure (in order) wins. -/
def collectResults : List (RustResult α) → RustResult (List α)
  | [] => .ok []
  | r :: rest =>
    match r with
    | .ok a => (collectResults rest).mapR (a :: ·)
    | .err e => .err e
    | .panicked => .panicked

/-- The per-namespace rayon task of `main` (src/main.rs lines 84-99):
extract every pod, and only if all succeed aggregate at container level. -/
def processNamespace (pods : List Pod) : RustResult (List ExtractedAndTaggedObject) :=
  (collectResults (pods.map process_pod)).mapR
    (fun containers => agg_and_sort containers.flatten extract_container_level_key)

/-- The receiver loop of `main` (src/main.rs lines 106-115): collect each
namespace's aggregated result, where the `?` on line 110 propagates the
first error and aborts the run; on success the per-namespace results are
concatenated into `container_level_results`. -/
def runMain (namespaces : List (List Pod)) : RustResult (List ExtractedAndTaggedObject) :=
  (collectResults (namespaces.map processNamespace)).mapR (fun parts => parts.flatten)

/-- `runMain` followed by the sort/filter stage (src/main.rs lines
116-131): the container-level report of one run. -/
def runReport (namespaces : List (List Pod)) (disable_filter : Bool) :
    RustResult (List ExtractedAndTaggedObject) :=
  (runMain namespaces).mapR (fun l => rank_and_filter l disable_filter)

/-- The adjacent-pairs descending-sorted predicate for the pipeline's sort
order (`b.total_cores ≤ a.total_cores` along the list). -/
def SortedDesc (l : List ExtractedAndTaggedObject) : Prop :=
  List.Chain' (fun a b => F32.leb b.total_cores a.total_cores = true) l

theorem F32.leb_total (a b : F32) : F32.leb a b = true ∨ F32.leb b a = true := by
  cases a <;> cases b <;> simp [F32.leb, qleb_eq]
  exact le_total _ _

theorem insertDesc_perm (r : ExtractedAndTaggedObject) (l : List ExtractedAndTaggedObject) :
    (insertDesc r l).Perm (r :: l) := by
  induction l with
  | nil => simp [insertDesc]
  | cons h t ih =>
    cases hc : F32.leb h.total_cores r.total_cores with
    | true => simp [insertDesc, hc]
    | false =>
      simp only [insertDesc, hc, Bool.false_eq_true, if_false]
      exact (ih.cons h).trans (List.Perm.swap r h t)

theorem sortDesc_perm (l : List ExtractedAndTaggedObject) : (sortDesc l).Perm l := by
  induction l with
  | nil => simp [sortDesc]
  | cons h t ih => exact (insertDesc_perm h (sortDesc t)).trans (ih.cons h)

theorem chain'_insertDesc (r : ExtractedAndTaggedObject) (l : List ExtractedAndTaggedObject)
    (hl : List.Chain' (fun a b => F32.leb b.total_cores a.total_cores = true) l) :
    List.Chain' (fun a b => F32.leb b.total_cores a.total_cores = true) (insertDesc r l) := by
  induction l with
  | nil => simp [insertDesc]
  | cons h t ih =>
    cases hc : F32.leb h.total_cores r.total_cores with
    | true =>
      simp only [insertDesc, hc, if_true]
      exact hl.cons hc
    | false =>
      simp only [insertDesc, hc, Bool.false_eq_true, if_false]
      have ht : List.Chain' (fun a b => F32.leb b.total_cores a.total_cores = true) t := hl.tail
      refine (ih ht).cons' ?_
      intro y hy
      cases t with
      | nil =>
        simp [insertDesc] at hy
        subst hy
        rcases F32.leb_total h.total_cores r.total_cores with h1 | h1
        · exact absurd h1 (by simp [hc])
        · exact h1
      | cons t0 tt =>
        cases hc0 : F32.leb t0.total_cores r.total_cores with
        | true =>
          rw [insertDesc, hc0, if_pos rfl] at hy
          simp only [List.head?_cons, Option.mem_def, Option.some.injEq] at hy
          subst hy
          rcases F32.leb_total h.total_cores r.total_cores with h1 | h1
          · exact absurd h1 (by simp [hc])
          · exact h1
        | false =>
          rw [insertDesc, hc0] at hy
          simp only [Bool.false_eq_true, if_false, List.head?_cons, Option.mem_def,
            Option.some.injEq] at hy
          subst hy
          exact (List.chain'_cons.1 hl).1

theorem sortDesc_sortedDesc (l : List ExtractedAndTaggedObject) : SortedDesc (sortDesc l) := by
  induction l with
  | nil => simp [sortDesc, SortedDesc]
  | cons h t ih => exact chain'_insertDesc h (sortDesc t) ih

theorem sortDesc_eq_of_sortedDesc (l : List ExtractedAndTaggedObject) (hl : SortedDesc l) :
    sortDesc l = l := by
  induction l with
  | nil => rfl
  | cons h t ih =>
    have ht : SortedDesc t := hl.tail
    rw [sortDesc, ih ht]
    cases t with
    | nil => rfl
    | cons t0 tt =>
      have h0 : F32.leb t0.total_cores h.total_cores = true := (List.chain'_cons.1 hl).1
      rw [insertDesc, h0, if_pos rfl]

theorem F32.leb_trans_of_ne_nan {a b c : F32} (ha : a ≠ F32.nan) (hb : b ≠ F32.nan)
    (hc : c ≠ F32.nan) (hab : F32.leb a b = true) (hbc : F32.leb b c = true) :
    F32.leb a c = true := by
  cases a with
  | nan => exact absurd rfl ha
  | num qa =>
    cases b with
    | nan => exact absurd rfl hb
    | num qb =>
      cases c with
      | nan => exact absurd rfl hc
      | num qc =>
        rw [F32.leb, qleb_eq] at *
        simp only [decide_eq_true_eq] at *
        exact le_trans hab hbc

theorem mem_insertDesc {x r : ExtractedAndTaggedObject} {l : List ExtractedAndTaggedObject} :
    x ∈ insertDesc r l ↔ x = r ∨ x ∈ l := by
  constructor
  · intro hx
    have := (insertDesc_perm r l).mem_iff.1 hx
    simpa using this
  · intro hx
    refine (insertDesc_perm r l).mem_iff.2 ?_
    simpa using hx

theorem pairwise_insertDesc (r : ExtractedAndTaggedObject) (l : List ExtractedAndTaggedObject)
    (hnr : r.total_cores ≠ F32.nan) (hnl : ∀ y ∈ l, y.total_cores ≠ F32.nan)
    (hl : List.Pairwise (fun a b => F32.leb b.total_cores a.total_cores = true) l) :
    List.Pairwise (fun a b => F32.leb b.total_cores a.total_cores = true) (insertDesc r l) := by
  induction l with
  | nil => simp [insertDesc]
  | cons h t ih =>
    cases hc : F32.leb h.total_cores r.total_cores with
    | true =>
      simp only [insertDesc, hc, if_true]
      refine List.Pairwise.cons ?_ hl
      intro y hy
      rcases List.mem_cons.1 hy with rfl | hyt
      · exact hc
      · exact F32.leb_trans_of_ne_nan (hnl y (List.mem_cons_of_mem h hyt))
          (hnl h (List.mem_cons_self h t)) hnr ((List.pairwise_cons.1 hl).1 y hyt) hc
    | false =>
      simp only [insertDesc, hc, Bool.false_eq_true, if_false]
      refine List.Pairwise.cons ?_ (ih (fun y hy => hnl y (List.mem_cons_of_mem h hy))
        (List.pairwise_cons.1 hl).2)
      intro y hy
      rcases mem_insertDesc.1 hy with rfl | hyt
      · rcases F32.leb_total h.total_cores y.total_cores with h1 | h1
        · exact absurd h1 (by simp [hc])
        · exact h1
      · exact (List.pairwise_cons.1 hl).1 y hyt

theorem sortDesc_pairwise (l : List ExtractedAndTaggedObject)
    (hn : ∀ y ∈ l, y.total_cores ≠ F32.nan) :
    List.Pairwise (fun a b => F32.leb b.total_cores a.total_cores = true) (sortDesc l) := by
  induction l with
  | nil => simp [sortDesc]
  | cons h t ih =>
    have hnt : ∀ y ∈ t, y.total_cores ≠ F32.nan := fun y hy => hn y (List.mem_cons_of_mem h hy)
    refine pairwise_insertDesc h (sortDesc t) (hn h (List.mem_cons_self h t)) ?_ (ih hnt)
    intro y hy
    exact hnt y ((sortDesc_perm t).mem_iff.1 hy)

theorem splitCh_ne_nil (l : List Char) : splitCh l ≠ [] := by
  cases l with
  | nil => simp [splitCh]
  | cons c rest =>
    rw [splitCh]
    cases h : splitCh rest with
    | nil => simp
    | cons a b =>
      by_cases hc : c = '|' <;> simp [hc]

theorem mem_splitCh_no_bar (l : List Char) : ∀ p ∈ splitCh l, '|' ∉ p := by
  induction l with
  | nil =>
    intro p hp
    simp [splitCh] at hp
    simp [hp]
  | cons c rest ih =>
    intro p hp
    rw [splitCh] at hp
    cases h : splitCh rest with
    | nil => exact absurd h (splitCh_ne_nil rest)
    | cons a b =>
      rw [h] at hp
      by_cases hc : c = '|'
      · simp only [hc, if_pos rfl] at hp
        rcases List.mem_cons.1 hp with rfl | hp2
        · simp
        · exact ih p (h ▸ hp2)
      · simp only [hc, if_false] at hp
        rcases List.mem_cons.1 hp with rfl | hp2
        · intro hmem
          rcases List.mem_cons.1 hmem with rfl | hmem2
          · exact hc rfl
          · exact ih a (h ▸ List.mem_cons_self a b) hmem2
        · exact ih p (h ▸ List.mem_cons_of_mem a hp2)

theorem splitCh_append_bar (a b : List Char) :
    splitCh (a ++ '|' :: b) = splitCh a ++ splitCh b := by
  induction a with
  | nil =>
    rw [List.nil_append, splitCh]
    cases h : splitCh b with
    | nil => exact absurd h (splitCh_ne_nil b)
    | cons x y => simp [splitCh, h]
  | cons c a' ih =>
    rw [List.cons_append, splitCh, ih]
    cases h : splitCh a' with
    | nil => exact absurd h (splitCh_ne_nil a')
    | cons x y =>
      by_cases hc : c = '|' <;> simp [splitCh, h, hc]

theorem splitCh_of_no_bar (l : List Char) (h : '|' ∉ l) : splitCh l = [l] := by
  induction l with
  | nil => rfl
  | cons c rest ih =>
    have hc : c ≠ '|' := fun hx => h (hx ▸ List.mem_cons_self c rest)
    have hrest : '|' ∉ rest := fun hx => h (List.mem_cons_of_mem c hx)
    rw [splitCh, ih hrest]
    simp [hc]

theorem splitCh_barJoinCh (ps : List (List Char)) (hne : ps ≠ []) :
    splitCh (barJoinCh ps) = ps.flatMap splitCh := by
  induction ps with
  | nil => exact absurd rfl hne
  | cons p rest ih =>
    cases rest with
    | nil => simp [barJoinCh, List.flatMap]
    | cons q rest' =>
      rw [barJoinCh, splitCh_append_bar, ih (by simp)]
      simp [List.flatMap]

theorem String.mk_data (s : String) : String.mk s.data = s := rfl

theorem splitBar_ne_nil (s : String) : splitBar s ≠ [] := by
  rw [splitBar]
  intro h
  exact splitCh_ne_nil s.data (List.map_eq_nil_iff.1 h)

theorem mem_splitBar_no_bar (s : String) : ∀ p ∈ splitBar s, '|' ∉ p.data := by
  intro p hp
  rw [splitBar, List.mem_map] at hp
  obtain ⟨l, hl, rfl⟩ := hp
  exact mem_splitCh_no_bar s.data l hl

theorem splitBar_barJoin (ps : List String) (hne : ps ≠ []) :
    splitBar (barJoin ps) = ps.flatMap splitBar := by
  rw [splitBar, barJoin, splitCh_barJoinCh _ (by simpa using hne)]
  simp only [List.flatMap_map, List.map_flatMap]
  rfl

theorem splitBar_of_no_bar (s : String) (h : '|' ∉ s.data) : splitBar s = [s] := by
  rw [splitBar, splitCh_of_no_bar s.data h]
  rfl

theorem flatMap_splitBar_of_no_bar (l : List String) (h : ∀ p ∈ l, '|' ∉ p.data) :
    l.flatMap splitBar = l := by
  induction l with
  | nil => rfl
  | cons p rest ih =>
    rw [List.flatMap_cons, splitBar_of_no_bar p (h p (List.mem_cons_self p rest)),
      ih (fun q hq => h q (List.mem_cons_of_mem p hq))]
    rfl

theorem mem_foldl_dedupAppend (l : List String) (acc : List String) (x : String) :
    x ∈ l.foldl dedupAppend acc ↔ x ∈ acc ∨ x ∈ l := by
  induction l generalizing acc with
  | nil => simp
  | cons s rest ih =>
    rw [List.foldl_cons, ih]
    rw [dedupAppend]
    by_cases hs : s ∈ acc
    · simp only [hs, if_pos]
      constructor
      · rintro (h1 | h2)
        · exact Or.inl h1
        · exact Or.inr (List.mem_cons_of_mem s h2)
      · rintro (h1 | h2)
        · exact Or.inl h1
        · rcases List.mem_cons.1 h2 with rfl | h3
          · exact Or.inl hs
          · exact Or.inr h3
    · simp only [hs, if_neg, not_false_iff, List.mem_append, List.mem_singleton, List.mem_cons]
      tauto

theorem mem_hashSetList (l : List String) (x : String) : x ∈ hashSetList l ↔ x ∈ l := by
  rw [hashSetList, mem_foldl_dedupAppend]
  simp

theorem hashSetList_no_bar (s : String) :
    ∀ p ∈ hashSetList (splitBar s), '|' ∉ p.data := fun p hp =>
  mem_splitBar_no_bar s p ((mem_hashSetList (splitBar s) p).1 hp)

theorem hashSetList_splitBar_ne_nil (s : String) : hashSetList (splitBar s) ≠ [] := by
  intro h
  obtain ⟨p, hp⟩ := List.exists_mem_of_ne_nil (splitBar s) (splitBar_ne_nil s)
  have := (mem_hashSetList (splitBar s) p).2 hp
  rw [h] at this
  exact List.not_mem_nil p this

theorem hashSetList_toFinset (l : List String) :
    (hashSetList l).toFinset = l.toFinset := by
  apply Finset.ext
  intro x
  simp [List.mem_toFinset, mem_hashSetList]

theorem mergeObj_containers_splitBar (a b : ExtractedAndTaggedObject) :
    splitBar ((mergeObj a b).containers) =
      hashSetList (splitBar a.containers) ++
        (if b.containers ∈ splitBar a.containers then [] else splitBar b.containers) := by
  have hS : ∀ p ∈ hashSetList (splitBar a.containers), '|' ∉ p.data := hashSetList_no_bar a.containers
  have hmem : b.containers ∈ hashSetList (splitBar a.containers) ↔
      b.containers ∈ splitBar a.containers :=
    mem_hashSetList (splitBar a.containers) b.containers
  show splitBar (barJoin (dedupAppend (hashSetList (splitBar a.containers)) b.containers)) = _
  by_cases hb : b.containers ∈ splitBar a.containers
  · rw [dedupAppend, if_pos (hmem.2 hb), if_pos hb, List.append_nil,
      splitBar_barJoin _ (hashSetList_splitBar_ne_nil a.containers),
      flatMap_splitBar_of_no_bar _ hS]
  · rw [dedupAppend, if_neg (fun hx => hb (hmem.1 hx)), if_neg hb,
      splitBar_barJoin _ (by simp), List.flatMap_append,
      flatMap_splitBar_of_no_bar _ hS]
    simp

/-- The set of container names carried by a record: its `containers` field
split on `'|'`, as a finite set. -/
def namesFinset (r : ExtractedAndTaggedObject) : Finset String :=
  (splitBar r.containers).toFinset

theorem mergeObj_namesFinset (a b : ExtractedAndTaggedObject) :
    namesFinset (mergeObj a b) = namesFinset a ∪ namesFinset b := by
  rw [namesFinset, mergeObj_containers_splitBar]
  by_cases hb : b.containers ∈ splitBar a.containers
  · rw [if_pos hb, List.append_nil, hashSetList_toFinset]
    have hbnb : '|' ∉ b.containers.data := mem_splitBar_no_bar a.containers b.containers hb
    have : namesFinset b = {b.containers} := by
      rw [namesFinset, splitBar_of_no_bar b.containers hbnb]
      rfl
    rw [namesFinset, this]
    rw [Finset.union_eq_left.2 ?_]
    simp only [Finset.singleton_subset_iff, List.mem_toFinset]
    exact hb
  · rw [if_neg hb, List.toFinset_append, hashSetList_toFinset]
    rfl

theorem getEntry_eq_none_iff (acc : List (String × ExtractedAndTaggedObject)) (k : String) :
    getEntry acc k = none ↔ k ∉ acc.map Prod.fst := by
  induction acc with
  | nil => simp [getEntry]
  | cons p rest ih =>
    obtain ⟨k0, v0⟩ := p
    rw [getEntry]
    by_cases hk : k0 = k
    · subst hk
      simp
    · simp only [hk, if_neg, not_false_iff, ih, List.map_cons, List.mem_cons]
      constructor
      · intro h hx
        rcases hx with hx | hx
        · exact hk hx.symm
        · exact h hx
      · intro h hx
        exact h (Or.inr hx)

theorem setEntry_map_of_getEntry
    (acc : List (String × ExtractedAndTaggedObject)) (k : String)
    (inside v : ExtractedAndTaggedObject) (h : getEntry acc k = some inside) :
    ∃ pre post, acc = pre ++ (k, inside) :: post ∧
      setEntry acc k v = pre ++ (k, v) :: post := by
  induction acc with
  | nil => simp [getEntry] at h
  | cons p rest ih =>
    obtain ⟨k0, v0⟩ := p
    rw [getEntry] at h
    by_cases hk : k0 = k
    · subst hk
      rw [if_pos rfl] at h
      obtain rfl : v0 = inside := Option.some.inj h
      exact ⟨[], rest, by simp, by simp [setEntry]⟩
    · rw [if_neg hk] at h
      obtain ⟨pre, post, h1, h2⟩ := ih h
      refine ⟨(k0, v0) :: pre, post, by simp [h1], ?_⟩
      rw [setEntry, if_neg hk, h2]
      simp

/-- A field-reading function `f` is merge-additive when the merge step sums
it; `total_cores` and `total_items` both are. -/
def MergeAdditive {M : Type} [AddCommMonoid M] (f : ExtractedAndTaggedObject → M) : Prop :=
  ∀ a b, f (mergeObj a b) = f a + f b

theorem aggStep_sum {M : Type} [AddCommMonoid M] (f : ExtractedAndTaggedObject → M)
    (hf : MergeAdditive f) (key : ExtractedAndTaggedObject → String)
    (acc : List (String × ExtractedAndTaggedObject)) (x : ExtractedAndTaggedObject) :
    ((aggStep key acc x).map (fun p => f p.2)).sum = ((acc.map (fun p => f p.2)).sum + f x) := by
  rw [aggStep]
  cases h : getEntry acc (key x) with
  | none => simp
  | some inside =>
    obtain ⟨pre, post, h1, h2⟩ := setEntry_map_of_getEntry acc (key x) inside (mergeObj inside x) h
    show ((setEntry acc (key x) (mergeObj inside x)).map (fun p => f p.2)).sum = _
    rw [h2, h1]
    simp only [List.map_append, List.map_cons, List.sum_append, List.sum_cons]
    rw [hf inside x]
    abel

theorem aggFold_sum {M : Type} [AddCommMonoid M] (f : ExtractedAndTaggedObject → M)
    (hf : MergeAdditive f) (key : ExtractedAndTaggedObject → String)
    (input_vec : List ExtractedAndTaggedObject) :
    ((aggFold key input_vec).map (fun p => f p.2)).sum = (input_vec.map f).sum := by
  suffices h : ∀ acc, ((input_vec.foldl (aggStep key) acc).map (fun p => f p.2)).sum =
      ((acc.map (fun p => f p.2)).sum + (input_vec.map f).sum) by
    have := h []
    simpa [aggFold] using this
  induction input_vec with
  | nil => simp
  | cons x rest ih =>
    intro acc
    rw [List.foldl_cons, ih (aggStep key acc x), aggStep_sum f hf key acc x]
    simp only [List.map_cons, List.sum_cons]
    abel

theorem sortDesc_map_sum {M : Type} [AddCommMonoid M] (f : ExtractedAndTaggedObject → M)
    (l : List ExtractedAndTaggedObject) : ((sortDesc l).map f).sum = (l.map f).sum :=
  ((sortDesc_perm l).map f).sum_eq

theorem agg_and_sort_sum {M : Type} [AddCommMonoid M] (f : ExtractedAndTaggedObject → M)
    (hf : MergeAdditive f) (key : ExtractedAndTaggedObject → String)
    (input_vec : List ExtractedAndTaggedObject) :
    ((agg_and_sort input_vec key).map f).sum = (input_vec.map f).sum := by
  rw [agg_and_sort, sortDesc_map_sum]
  rw [List.map_map]
  exact aggFold_sum f hf key input_vec

theorem setEntry_map_fst (acc : List (String × ExtractedAndTaggedObject)) (k : String)
    (v inside : ExtractedAndTaggedObject) (h : getEntry acc k = some inside) :
    (setEntry acc k v).map Prod.fst = acc.map Prod.fst := by
  obtain ⟨pre, post, h1, h2⟩ := setEntry_map_of_getEntry acc k inside v h
  rw [h2, h1]
  simp

theorem aggStep_map_fst_nodup (key : ExtractedAndTaggedObject → String)
    (acc : List (String × ExtractedAndTaggedObject)) (x : ExtractedAndTaggedObject)
    (h : (acc.map Prod.fst).Nodup) : ((aggStep key acc x).map Prod.fst).Nodup := by
  rw [aggStep]
  cases hg : getEntry acc (key x) with
  | none =>
    show ((acc ++ [(key x, x)]).map Prod.fst).Nodup
    rw [List.map_append]
    simp only [List.map_cons, List.map_nil]
    rw [List.nodup_append]
    refine ⟨h, List.nodup_singleton _, ?_⟩
    intro a ha hb
    simp only [List.mem_singleton] at hb
    subst hb
    exact ((getEntry_eq_none_iff acc (key x)).1 hg) ha
  | some inside =>
    show ((setEntry acc (key x) (mergeObj inside x)).map Prod.fst).Nodup
    rw [setEntry_map_fst acc (key x) _ inside hg]
    exact h

theorem aggFold_map_fst_nodup (key : ExtractedAndTaggedObject → String)
    (input_vec : List ExtractedAndTaggedObject) :
    ((aggFold key input_vec).map Prod.fst).Nodup := by
  suffices h : ∀ acc, (acc.map Prod.fst).Nodup →
      ((input_vec.foldl (aggStep key) acc).map Prod.fst).Nodup from h [] (by simp)
  induction input_vec with
  | nil => exact fun acc h => h
  | cons x rest ih =>
    intro acc hacc
    exact ih (aggStep key acc x) (aggStep_map_fst_nodup key acc x hacc)

/-- A key function is merge-invariant when merging does not change the key:
it reads only fields the merge step leaves untouched.  The object-level key
is; the container-level key is not. -/
def MergeInvariantKey (key : ExtractedAndTaggedObject → String) : Prop :=
  ∀ a b, key (mergeObj a b) = key a

theorem aggStep_key_consistent (key : ExtractedAndTaggedObject → String)
    (hk : MergeInvariantKey key) (acc : List (String × ExtractedAndTaggedObject))
    (x : ExtractedAndTaggedObject) (h : ∀ p ∈ acc, key p.2 = p.1) :
    ∀ p ∈ aggStep key acc x, key p.2 = p.1 := by
  intro p hp
  rw [aggStep] at hp
  cases hg : getEntry acc (key x) with
  | none =>
    rw [hg] at hp
    simp only at hp
    rcases List.mem_append.1 hp with h1 | h1
    · exact h p h1
    · simp only [List.mem_singleton] at h1
      subst h1
      rfl
  | some inside =>
    rw [hg] at hp
    simp only at hp
    obtain ⟨pre, post, h1, h2⟩ :=
      setEntry_map_of_getEntry acc (key x) inside (mergeObj inside x) hg
    rw [h2] at hp
    rcases List.mem_append.1 hp with hpre | hrest
    · exact h p (h1 ▸ List.mem_append.2 (Or.inl hpre))
    · rcases List.mem_cons.1 hrest with rfl | hpost
      · show key (mergeObj inside x) = key x
        rw [hk inside x]
        exact h (key x, inside) (h1 ▸ List.mem_append.2 (Or.inr (List.mem_cons_self _ _)))
      · exact h p (h1 ▸ List.mem_append.2 (Or.inr (List.mem_cons_of_mem _ hpost)))

theorem aggFold_key_consistent (key : ExtractedAndTaggedObject → String)
    (hk : MergeInvariantKey key) (input_vec : List ExtractedAndTaggedObject) :
    ∀ p ∈ aggFold key input_vec, key p.2 = p.1 := by
  suffices h : ∀ acc, (∀ p ∈ acc, key p.2 = p.1) →
      ∀ p ∈ input_vec.foldl (aggStep key) acc, key p.2 = p.1 from
    h [] (by simp)
  induction input_vec with
  | nil => exact fun acc h => h
  | cons x rest ih =>
    intro acc hacc
    exact ih (aggStep key acc x) (aggStep_key_consistent key hk acc x hacc)

theorem foldl_aggStep_of_nodup_keys (key : ExtractedAndTaggedObject → String) :
    ∀ (input_vec : List ExtractedAndTaggedObject) (acc : List (String × ExtractedAndTaggedObject)),
    (acc.map Prod.fst ++ input_vec.map key).Nodup →
    input_vec.foldl (aggStep key) acc = acc ++ input_vec.map (fun x => (key x, x)) := by
  intro input_vec
  induction input_vec with
  | nil => simp
  | cons x rest ih =>
    intro acc hacc
    have hx_not : key x ∉ acc.map Prod.fst := by
      intro hx
      have := (List.nodup_append.1 hacc).2.2
      exact this hx (by simp)
    have hstep : aggStep key acc x = acc ++ [(key x, x)] := by
      rw [aggStep, (getEntry_eq_none_iff acc (key x)).2 hx_not]
    rw [List.foldl_cons, hstep, ih (acc ++ [(key x, x)]) ?_]
    · simp
    · simp only [List.map_append, List.map_cons, List.map_nil] at hacc ⊢
      have heq : (acc.map Prod.fst ++ [key x]) ++ (rest.map key) =
          acc.map Prod.fst ++ (key x :: rest.map key) := by simp
      rw [heq]
      exact hacc

theorem aggFold_of_nodup_keys (key : ExtractedAndTaggedObject → String)
    (input_vec : List ExtractedAndTaggedObject) (h : (input_vec.map key).Nodup) :
    aggFold key input_vec = input_vec.map (fun x => (key x, x)) := by
  have := foldl_aggStep_of_nodup_keys key input_vec [] (by simpa using h)
  simpa [aggFold] using this

theorem agg_and_sort_idempotent_of_mergeInvariant (key : ExtractedAndTaggedObject → String)
    (hk : MergeInvariantKey key) (input_vec : List ExtractedAndTaggedObject) :
    agg_and_sort (agg_and_sort input_vec key) key = agg_and_sort input_vec key := by
  set L := agg_and_sort input_vec key with hL
  have hLkeys : (L.map key).Nodup := by
    have h1 : ((aggFold key input_vec).map Prod.snd).map key =
        (aggFold key input_vec).map Prod.fst := by
      rw [List.map_map]
      exact List.map_congr_left (fun p hp => aggFold_key_consistent key hk input_vec p hp)
    have h2 : (((aggFold key input_vec).map Prod.snd).map key).Nodup := by
      rw [h1]
      exact aggFold_map_fst_nodup key input_vec
    have hperm : (L.map key).Perm (((aggFold key input_vec).map Prod.snd).map key) :=
      (sortDesc_perm ((aggFold key input_vec).map Prod.snd)).map key
    exact h2.perm hperm.symm
  rw [agg_and_sort, aggFold_of_nodup_keys key L hLkeys, List.map_map]
  have : (Prod.snd ∘ fun x => (key x, x)) = id := rfl
  rw [this, List.map_id]
  exact sortDesc_eq_of_sortedDesc L (hL ▸ sortDesc_sortedDesc _)

theorem RustResult.isOk_mapR {α β : Type} (f : α → β) (r : RustResult α) :
    (r.mapR f).isOk = r.isOk := by
  cases r <;> rfl

theorem extractList_not_ok (name ns type_of : String) (nsc : Bool) (nss : String)
    (replicas : Int) (l : List Container) (h : ∃ c ∈ l, c.image = none) :
    (extractList name ns type_of nsc nss replicas l).isOk = false := by
  induction l with
  | nil => simp at h
  | cons c rest ih =>
    obtain ⟨c0, hc0, himg⟩ := h
    rcases List.mem_cons.1 hc0 with rfl | hc0rest
    · rw [extractList, extractOne, himg]
      rfl
    · rw [extractList]
      cases hone : extractOne name ns type_of nsc nss replicas c with
      | panicked => rfl
      | err e => rfl
      | ok o =>
        have := ih ⟨c0, hc0rest, himg⟩
        cases hrest : extractList name ns type_of nsc nss replicas rest with
        | panicked => rfl
        | err e => rfl
        | ok lr => rw [hrest] at this; exact absurd this (by simp [RustResult.isOk])

theorem extractList_first_none (name ns type_of : String) (nsc : Bool) (nss : String)
    (replicas : Int) (c : Container) (rest : List Container) (h : c.image = none) :
    extractList name ns type_of nsc nss replicas (c :: rest) = .panicked := by
  rw [extractList, extractOne, h]

theorem extractOne_object_name (name ns type_of : String) (nsc : Bool) (nss : String)
    (replicas : Int) (c : Container) (o : ExtractedAndTaggedObject)
    (h : extractOne name ns type_of nsc nss replicas c = .ok o) : o.object_name = name := by
  rw [extractOne] at h
  cases himg : c.image with
  | none => rw [himg] at h; exact absurd h (by simp)
  | some image =>
    rw [himg] at h
    simp only at h
    cases hc : (match c.resources with
      | some resource =>
        match resource.requests with
        | some requests =>
          match mapGet requests "cpu" with
          | some inside => convert_quantity_to_int inside
          | none => Except.ok (F32.num 0)
        | none => Except.ok (F32.num 0)
      | none => Except.ok (F32.num 0) : Except String F32) with
    | ok v =>
      rw [hc] at h
      simp only [RustResult.ok.injEq] at h
      rw [← h]
    | error e =>
      rw [hc] at h
      exact absurd h (by simp)

theorem extractList_object_name (name ns type_of : String) (nsc : Bool) (nss : String)
    (replicas : Int) (l : List Container) (objs : List ExtractedAndTaggedObject)
    (h : extractList name ns type_of nsc nss replicas l = .ok objs) :
    ∀ r ∈ objs, r.object_name = name := by
  induction l generalizing objs with
  | nil =>
    rw [extractList] at h
    simp only [RustResult.ok.injEq] at h
    subst h
    intro r hr
    simp at hr
  | cons c rest ih =>
    rw [extractList] at h
    cases hone : extractOne name ns type_of nsc nss replicas c with
    | panicked => rw [hone] at h; exact absurd h (by simp)
    | err e => rw [hone] at h; exact absurd h (by simp)
    | ok o =>
      rw [hone] at h
      cases hrest : extractList name ns type_of nsc nss replicas rest with
      | panicked => rw [hrest] at h; exact absurd h (by simp)
      | err e => rw [hrest] at h; exact absurd h (by simp)
      | ok lr =>
        rw [hrest] at h
        simp only [RustResult.ok.injEq] at h
        subst h
        intro r hr
        rcases List.mem_cons.1 hr with rfl | hr2
        · exact extractOne_object_name name ns type_of nsc nss replicas c r hone
        · exact ih lr hrest r hr2

theorem collectResults_not_ok {α : Type} (l : List (RustResult α))
    (h : ∃ r ∈ l, r.isOk = false) : (collectResults l).isOk = false := by
  induction l with
  | nil => simp at h
  | cons r rest ih =>
    obtain ⟨r0, hr0, hnok⟩ := h
    rcases List.mem_cons.1 hr0 with rfl | hr0rest
    · rw [collectResults.eq_def]
      cases r0 with
      | panicked => rfl
      | err e => rfl
      | ok a => exact absurd hnok (by simp [RustResult.isOk])
    · rw [collectResults.eq_def]
      cases r with
      | panicked => rfl
      | err e => rfl
      | ok a =>
        rw [RustResult.isOk_mapR]
        exact ih ⟨r0, hr0rest, hnok⟩

/-- The fields of a record that the merge step never touches (everything
except `total_cores`, `total_items` and `containers`). -/
def frameFields (r : ExtractedAndTaggedObject) :
    String × String × String × String × Bool × Bool × Bool × String :=
  (r.object_name, r.«namespace», r.type_of, r.node_selectors,
    r.node_selector_check, r.qos_check, r.image_check, r.image_url)

theorem frameFields_mergeObj (a b : ExtractedAndTaggedObject) :
    frameFields (mergeObj a b) = frameFields a := rfl

theorem getEntry_setEntry_ne (acc : List (String × ExtractedAndTaggedObject))
    (k K : String) (v : ExtractedAndTaggedObject) (h : K ≠ k) :
    getEntry (setEntry acc k v) K = getEntry acc K := by
  induction acc with
  | nil =>
    rw [setEntry, getEntry, getEntry, if_neg (fun hx : k = K => h hx.symm)]
    rfl
  | cons p rest ih =>
    obtain ⟨k0, v0⟩ := p
    rw [setEntry]
    by_cases hk : k0 = k
    · subst hk
      rw [if_pos rfl, getEntry, getEntry, if_neg (fun hx : k0 = K => h (hx ▸ rfl)),
        if_neg (fun hx : k0 = K => h (hx ▸ rfl))]
    · rw [if_neg hk, getEntry, getEntry]
      by_cases hK : k0 = K
      · rw [if_pos hK, if_pos hK]
      · rw [if_neg hK, if_neg hK, ih]

theorem getEntry_setEntry_self (acc : List (String × ExtractedAndTaggedObject))
    (k : String) (v w : ExtractedAndTaggedObject) (h : getEntry acc k = some w) :
    getEntry (setEntry acc k v) k = some v := by
  induction acc with
  | nil => rw [getEntry] at h; exact absurd h (by simp)
  | cons p rest ih =>
    obtain ⟨k0, v0⟩ := p
    rw [getEntry] at h
    rw [setEntry]
    by_cases hk : k0 = k
    · subst hk
      rw [if_pos rfl, getEntry, if_pos rfl]
    · rw [if_neg hk] at h
      rw [if_neg hk, getEntry, if_neg hk]
      exact ih h

theorem getEntry_append_ne (acc : List (String × ExtractedAndTaggedObject))
    (k K : String) (x : ExtractedAndTaggedObject) (h : K ≠ k) :
    getEntry (acc ++ [(k, x)]) K = getEntry acc K := by
  induction acc with
  | nil =>
    rw [List.nil_append, getEntry, getEntry, if_neg (fun hx : k = K => h hx.symm)]
    rfl
  | cons p rest ih =>
    obtain ⟨k0, v0⟩ := p
    rw [List.cons_append, getEntry, getEntry]
    by_cases hK : k0 = K
    · rw [if_pos hK, if_pos hK]
    · rw [if_neg hK, if_neg hK, ih]

theorem getEntry_append_self (acc : List (String × ExtractedAndTaggedObject))
    (k : String) (x : ExtractedAndTaggedObject) (h : getEntry acc k = none) :
    getEntry (acc ++ [(k, x)]) k = some x := by
  induction acc with
  | nil => simp [getEntry]
  | cons p rest ih =>
    obtain ⟨k0, v0⟩ := p
    rw [getEntry] at h
    rw [List.cons_append, getEntry]
    by_cases hk : k0 = k
    · rw [if_pos hk] at h; exact absurd h (by simp)
    · rw [if_neg hk] at h ⊢
      exact ih h

/-- Invariant tying the aggregation map to the processed prefix `P` of the
input: a stored value's untouched fields are those of the first record of
`P` carrying its key. -/
def FoldFrameInv (key : ExtractedAndTaggedObject → String)
    (P : List ExtractedAndTaggedObject) (acc : List (String × ExtractedAndTaggedObject)) : Prop :=
  ∀ K : String,
    (getEntry acc K = none → P.find? (fun r => key r == K) = none) ∧
    (∀ v, getEntry acc K = some v →
      ∃ r0, P.find? (fun r => key r == K) = some r0 ∧ frameFields v = frameFields r0)

theorem foldFrameInv_step (key : ExtractedAndTaggedObject → String)
    (P : List ExtractedAndTaggedObject) (acc : List (String × ExtractedAndTaggedObject))
    (x : ExtractedAndTaggedObject) (hinv : FoldFrameInv key P acc) :
    FoldFrameInv key (P ++ [x]) (aggStep key acc x) := by
  intro K
  rw [aggStep]
  by_cases hK : K = key x
  · subst hK
    cases hg : getEntry acc (key x) with
    | some inside =>
      constructor
      · intro hnone
        rw [getEntry_setEntry_self acc (key x) (mergeObj inside x) inside hg] at hnone
        exact absurd hnone (by simp)
      · intro v hv
        rw [getEntry_setEntry_self acc (key x) (mergeObj inside x) inside hg] at hv
        obtain rfl : mergeObj inside x = v := Option.some.inj hv
        obtain ⟨r0, hr0, hfr⟩ := (hinv (key x)).2 inside hg
        refine ⟨r0, ?_, ?_⟩
        · rw [List.find?_append, hr0]
          rfl
        · rw [frameFields_mergeObj]
          exact hfr
    | none =>
      constructor
      · intro hnone
        rw [getEntry_append_self acc (key x) x hg] at hnone
        exact absurd hnone (by simp)
      · intro v hv
        rw [getEntry_append_self acc (key x) x hg] at hv
        obtain rfl : x = v := Option.some.inj hv
        refine ⟨x, ?_, rfl⟩
        rw [List.find?_append, (hinv (key x)).1 hg]
        rw [Option.none_or, List.find?_cons]
        simp
  · have hne : K ≠ key x := hK
    have hsing : [x].find? (fun r => key r == K) = none := by
      rw [List.find?_eq_none]
      intro y hy
      rw [List.mem_singleton] at hy
      subst hy
      simp only [beq_iff_eq]
      exact fun hx => hne hx.symm
    have hfind : (P ++ [x]).find? (fun r => key r == K) = P.find? (fun r => key r == K) := by
      rw [List.find?_append, hsing, Option.or_none]
    cases hg : getEntry acc (key x) with
    | some inside =>
      rw [getEntry_setEntry_ne acc (key x) K (mergeObj inside x) hne]
      refine ⟨fun hnone => ?_, fun v hv => ?_⟩
      · rw [hfind]
        exact (hinv K).1 hnone
      · rw [hfind]
        exact (hinv K).2 v hv
    | none =>
      rw [getEntry_append_ne acc (key x) K x hne]
      refine ⟨fun hnone => ?_, fun v hv => ?_⟩
      · rw [hfind]
        exact (hinv K).1 hnone
      · rw [hfind]
        exact (hinv K).2 v hv

theorem foldFrameInv_fold (key : ExtractedAndTaggedObject → String) :
    ∀ (input : List ExtractedAndTaggedObject) (P : List ExtractedAndTaggedObject)
      (acc : List (String × ExtractedAndTaggedObject)), FoldFrameInv key P acc →
      FoldFrameInv key (P ++ input) (input.foldl (aggStep key) acc) := by
  intro input
  induction input with
  | nil => intro P acc h; simpa using h
  | cons x rest ih =>
    intro P acc h
    have := ih (P ++ [x]) (aggStep key acc x) (foldFrameInv_step key P acc x h)
    simpa using this

theorem getEntry_of_mem_nodup (acc : List (String × ExtractedAndTaggedObject))
    (K : String) (v : ExtractedAndTaggedObject) (hnd : (acc.map Prod.fst).Nodup)
    (hmem : (K, v) ∈ acc) : getEntry acc K = some v := by
  induction acc with
  | nil => simp at hmem
  | cons p rest ih =>
    obtain ⟨k0, v0⟩ := p
    rw [getEntry]
    rcases List.mem_cons.1 hmem with heq | hrest
    · rw [Prod.mk.injEq] at heq
      obtain ⟨h1, h2⟩ := heq
      rw [if_pos h1.symm, h2]
    · by_cases hk : k0 = K
      · subst hk
        exfalso
        have : k0 ∈ rest.map Prod.fst := List.mem_map.2 ⟨(k0, v), hrest, rfl⟩
        exact (List.nodup_cons.1 hnd).1 this
      · rw [if_neg hk]
        exact ih (List.nodup_cons.1 hnd).2 hrest

theorem aggFold_frame_first_seen (key : ExtractedAndTaggedObject → String)
    (R : List ExtractedAndTaggedObject) (p : String × ExtractedAndTaggedObject)
    (hp : p ∈ aggFold key R) :
    ∃ r0, R.find? (fun r => key r == p.1) = some r0 ∧ frameFields p.2 = frameFields r0 := by
  have hinv : FoldFrameInv key ([] ++ R) (R.foldl (aggStep key) []) :=
    foldFrameInv_fold key R [] [] (by
      intro K
      refine ⟨fun _ => rfl, fun v hv => ?_⟩
      rw [getEntry] at hv
      exact absurd hv (by simp))
  rw [List.nil_append] at hinv
  obtain ⟨K, v⟩ := p
  exact (hinv K).2 v (getEntry_of_mem_nodup _ K v (aggFold_map_fst_nodup key R) hp)

/-- Claim C1: for every record sequence `R` and every key function, the
aggregation `agg_and_sort` preserves totals: the sum of `total_cores` over
the output equals the sum over `R`, and likewise for `total_items` (the
instance count).  The merge step sums both fields and the final sort only
permutes the records. -/
theorem claim_C1_agg_preserves_totals (R : List ExtractedAndTaggedObject)
    (key : ExtractedAndTaggedObject → String) :
    ((agg_and_sort R key).map (fun r => r.total_cores)).sum =
      (R.map (fun r => r.total_cores)).sum ∧
    ((agg_and_sort R key).map (fun r => r.total_items)).sum =
      (R.map (fun r => r.total_items)).sum :=
  ⟨agg_and_sort_sum (fun r => r.total_cores) (fun _ _ => rfl) key R,
   agg_and_sort_sum (fun r => r.total_items) (fun _ _ => rfl) key R⟩

/-- Claim C2: a merge step sums `total_cores` and `total_items`, unions the
container-name sets, and keeps every other field of the stored record; and
across a whole aggregation run every stored record's untouched fields are
exactly those of the first input record carrying its key (first-seen
wins, flags are never recomputed on merge). -/
theorem claim_C2_merge_frame :
    (∀ a b : ExtractedAndTaggedObject,
      (mergeObj a b).total_cores = a.total_cores + b.total_cores ∧
      (mergeObj a b).total_items = a.total_items + b.total_items ∧
      namesFinset (mergeObj a b) = namesFinset a ∪ namesFinset b ∧
      (mergeObj a b).object_name = a.object_name ∧
      (mergeObj a b).«namespace» = a.«namespace» ∧
      (mergeObj a b).type_of = a.type_of ∧
      (mergeObj a b).node_selectors = a.node_selectors ∧
      (mergeObj a b).node_selector_check = a.node_selector_check ∧
      (mergeObj a b).qos_check = a.qos_check ∧
      (mergeObj a b).image_check = a.image_check ∧
      (mergeObj a b).image_url = a.image_url) ∧
    (∀ (key : ExtractedAndTaggedObject → String) (R : List ExtractedAndTaggedObject)
      (p : String × ExtractedAndTaggedObject), p ∈ aggFold key R →
      (R.find? (fun r => key r == p.1)).map frameFields = some (frameFields p.2)) := by
  refine ⟨fun a b =>
    ⟨rfl, rfl, mergeObj_namesFinset a b, rfl, rfl, rfl, rfl, rfl, rfl, rfl, rfl⟩, ?_⟩
  intro key R p hp
  obtain ⟨r0, h1, h2⟩ := aggFold_frame_first_seen key R p hp
  rw [h1]
  simp [h2]

/-- A concrete record builder for the witnesses and counterexamples. -/
def sampleObj (name ns t c : String) (cores : ℚ) : ExtractedAndTaggedObject :=
  { object_name := name, «namespace» := ns, type_of := t, containers := c,
    node_selectors := "None", node_selector_check := false, qos_check := false,
    image_check := false, image_url := "img", total_cores := F32.num cores, total_items := 1 }

/-- Concrete record for the C2 witness. -/
def objC2 : ExtractedAndTaggedObject := sampleObj "o" "n" "pod" "a" 2

/-- Witness for C2 at a concrete record and a singleton aggregation run. -/
theorem claim_C2_merge_frame_witness :
    (mergeObj objC2 objC2).total_cores = objC2.total_cores + objC2.total_cores ∧
    (List.find? (fun r => extract_object_level_key r == extract_object_level_key objC2)
        [objC2]).map frameFields = some (frameFields objC2) :=
  ⟨(claim_C2_merge_frame.1 objC2 objC2).1,
   claim_C2_merge_frame.2 extract_object_level_key [objC2]
     (extract_object_level_key objC2, objC2) (List.mem_singleton.2 rfl)⟩

/-- Claim C3: the quantity parser returns, for a string containing `'m'`,
the stripped remainder parsed with no scaling (so parsing `"400m"` and
dividing by 1000 yields 0.4); for a string with neither `'m'` nor `'g'`,
the whole string parsed times 1000 (so `"2"` yields 2000 and
`2000 * 1 / 1000 = 2`); and an error for the empty string or a non-numeric
residue after stripping. -/
theorem claim_C3_quantity_conversion :
    (∀ (s : String) (v : F32), containsChar s 'm' = true →
      parseF32 (removeChar s 'm') = some v → convert_quantity_to_int s = .ok v) ∧
    (∀ s : String, containsChar s 'm' = true → parseF32 (removeChar s 'm') = none →
      (convert_quantity_to_int s).isErrE = true) ∧
    (∀ (s : String) (v : F32), containsChar s 'm' = false → containsChar s 'g' = false →
      parseF32 s = some v → convert_quantity_to_int s = .ok (v.mul (F32.num 1000))) ∧
    convert_quantity_to_int "400m" = .ok (F32.num 400) ∧
    F32.div (F32.num 400) (F32.num 1000) = F32.num 0.4 ∧
    convert_quantity_to_int "2" = .ok (F32.num 2000) ∧
    F32.div (F32.mul (F32.num 2000) (F32.num 1)) (F32.num 1000) = F32.num 2 ∧
    (convert_quantity_to_int "").isErrE = true ∧
    (convert_quantity_to_int "mm").isErrE = true := by
  refine ⟨?_, ?_, ?_, ?_, ?_, ?_, ?_, ?_, ?_⟩
  · intro s v h1 h2
    rw [convert_quantity_to_int, if_pos h1, h2]
  · intro s h1 h2
    rw [convert_quantity_to_int, if_pos h1, h2]
    rfl
  · intro s v h1 h2 h3
    rw [convert_quantity_to_int, if_neg (by simp [h1]), if_neg (by simp [h2]), h3]
  · rfl
  · show F32.num (qdiv 400 1000) = F32.num 0.4
    rw [qdiv_eq]
    norm_num
  · rfl
  · show F32.num (qdiv (qmul 2000 1) 1000) = F32.num 2
    rw [qmul_eq, qdiv_eq]
    norm_num
  · rfl
  · rfl

/-- Witness for C3: the three general parts applied at `"400m"`, `"mm"`
and `"2"`. -/
theorem claim_C3_quantity_conversion_witness :
    convert_quantity_to_int "400m" = .ok (F32.num 400) ∧
    (convert_quantity_to_int "mm").isErrE = true ∧
    convert_quantity_to_int "2" = .ok ((F32.num 2).mul (F32.num 1000)) :=
  ⟨claim_C3_quantity_conversion.1 "400m" (F32.num 400) (by decide) (by decide),
   claim_C3_quantity_conversion.2.1 "mm" (by decide) (by decide),
   claim_C3_quantity_conversion.2.2.1 "2" (F32.num 2) (by decide) (by decide) (by decide)⟩

/-- Concrete records both already carrying the joined name list "a|b". -/
def objC9a : ExtractedAndTaggedObject := sampleObj "o" "n" "pod" "a|b" 2

/-- Second record with the same joined name list. -/
def objC9b : ExtractedAndTaggedObject := sampleObj "o" "n" "pod" "a|b" 1

/-- Claim C9: the merge splits the stored record's `containers` into
individual (deduplicated) names but inserts the incoming record's
`containers` string as one single set element: the merged string's
segments are the stored names followed — whenever the incoming whole
string is not itself one of the stored names — by the incoming string's
own segments.  In particular merging two records that both carry "a|b"
yields the duplicated "a|b|a|b". -/
theorem claim_C9_incoming_inserted_whole :
    (∀ a b : ExtractedAndTaggedObject,
      splitBar ((mergeObj a b).containers) =
        hashSetList (splitBar a.containers) ++
          (if b.containers ∈ splitBar a.containers then [] else splitBar b.containers)) ∧
    (mergeObj objC9a objC9b).containers = "a|b|a|b" :=
  ⟨mergeObj_containers_splitBar, by decide⟩

/-- First C7 record: its `containers` field already holds a joined list. -/
def objC7r1 : ExtractedAndTaggedObject := sampleObj "o" "n" "t" "a-b|b" 5

/-- Second C7 record, sharing the container-level key with the third. -/
def objC7r2 : ExtractedAndTaggedObject := sampleObj "o" "n" "t" "a-b" 3

/-- Third C7 record: its fields embed dashes so that its `format!`-built
container-level key collides with the second record's. -/
def objC7r3 : ExtractedAndTaggedObject := sampleObj "o-n" "t" "a" "b" 1

/-- The C7 counterexample input. -/
def listC7 : List ExtractedAndTaggedObject := [objC7r1, objC7r2, objC7r3]

/-- Counterexample to C7 as stated: at the container-level key function,
re-aggregating the output of `agg_and_sort` changes it.  The first pass
merges two records whose `format!("{}-{}-{}-{}")` keys collide, rewriting
`containers` to "a-b|b"; the rewritten record's key now equals the first
record's key, so the second pass merges again: two records become one. -/
theorem claim_C7_counterexample :
    agg_and_sort (agg_and_sort listC7 extract_container_level_key) extract_container_level_key ≠
      agg_and_sort listC7 extract_container_level_key := by
  intro h
  have h1 : (agg_and_sort (agg_and_sort listC7 extract_container_level_key)
      extract_container_level_key).length = 1 := by decide
  have h2 : (agg_and_sort listC7 extract_container_level_key).length = 2 := by decide
  rw [h, h2] at h1
  exact absurd h1 (by decide)

/-- Claim C7 (amended): aggregation is idempotent at a fixed key
granularity for every key function the merge step cannot change (one that
reads only fields merging leaves untouched — the object-level key is such
a key); the container-level key reads `containers`, which merging
rewrites, and violates idempotence (see the counterexample). -/
theorem claim_C7_amended_idempotent (key : ExtractedAndTaggedObject → String)
    (hk : MergeInvariantKey key) (R : List ExtractedAndTaggedObject) :
    agg_and_sort (agg_and_sort R key) key = agg_and_sort R key :=
  agg_and_sort_idempotent_of_mergeInvariant key hk R

/-- Witness for the amended C7 at the object-level key and a concrete run. -/
theorem claim_C7_amended_idempotent_witness :
    agg_and_sort (agg_and_sort listC7 extract_object_level_key) extract_object_level_key =
      agg_and_sort listC7 extract_object_level_key :=
  claim_C7_amended_idempotent extract_object_level_key (fun _ _ => rfl) listC7

/-- Claim C6: `rank_and_filter` sorts descending by `total_cores` (stated
over NaN-free inputs, on which the source comparator is total — see C8);
with the compliance filter enabled (`disable_filter = false`, the clap
default) it retains exactly the records failing at least one of
`node_selector_check`, `qos_check`, `image_check`; with the filter
disabled it retains every record. -/
theorem claim_C6_rank_and_filter (l : List ExtractedAndTaggedObject) (b : Bool)
    (hn : ∀ r ∈ l, r.total_cores ≠ F32.nan) :
    (rank_and_filter l false).Perm
      (l.filter (fun x => !x.node_selector_check || !x.qos_check || !x.image_check)) ∧
    (rank_and_filter l true).Perm l ∧
    List.Pairwise (fun a c => F32.leb c.total_cores a.total_cores = true)
      (rank_and_filter l b) := by
  refine ⟨?_, ?_, ?_⟩
  · show ((sortDesc l).filter
      (fun x => !x.image_check || !x.node_selector_check || !x.qos_check)).Perm _
    have hperm := (sortDesc_perm l).filter
      (fun x => !x.image_check || !x.node_selector_check || !x.qos_check)
    have hcongr : l.filter (fun x => !x.image_check || !x.node_selector_check || !x.qos_check) =
        l.filter (fun x => !x.node_selector_check || !x.qos_check || !x.image_check) := by
      apply List.filter_congr
      intro x _
      cases x.node_selector_check <;> cases x.qos_check <;> cases x.image_check <;> rfl
    rw [hcongr] at hperm
    exact hperm
  · exact sortDesc_perm l
  · cases b with
    | true => exact sortDesc_pairwise l hn
    | false =>
      exact List.Pairwise.sublist (List.filter_sublist _) (sortDesc_pairwise l hn)

/-- Concrete NaN-free input for the C6 witness. -/
def listC6 : List ExtractedAndTaggedObject :=
  [sampleObj "o1" "n" "pod" "a" 1, sampleObj "o2" "n" "pod" "b" 7]

/-- Witness for C6 at a concrete NaN-free input. -/
theorem claim_C6_rank_and_filter_witness :
    (rank_and_filter listC6 false).Perm
      (listC6.filter (fun x => !x.node_selector_check || !x.qos_check || !x.image_check)) ∧
    List.Pairwise (fun a c => F32.leb c.total_cores a.total_cores = true)
      (rank_and_filter listC6 false) :=
  ⟨(claim_C6_rank_and_filter listC6 false (by decide)).1,
   (claim_C6_rank_and_filter listC6 false (by decide)).2.2⟩

/-- The comparator closure passed to each `par_sort_unstable_by` in
src/main.rs (lines 117-118, 142-143 and 259):
`b.total_cores.partial_cmp(&a.total_cores).unwrap()`.  The `unwrap`
panics exactly when this is `none`, i.e. when a NaN is involved. -/
def sortCmp (a b : ExtractedAndTaggedObject) : Option Ordering :=
  F32.cmpOpt b.total_cores a.total_cores

/-- A record whose `total_cores` is NaN. -/
def objC8nan : ExtractedAndTaggedObject :=
  { sampleObj "o" "n" "pod" "a" 0 with total_cores := F32.nan }

/-- A record with finite `total_cores`. -/
def objC8fin : ExtractedAndTaggedObject := sampleObj "p" "n" "pod" "b" 1

/-- A container whose CPU request is the string "NaN". -/
def contC8 : Container :=
  { name := "c", image := some "img",
    resources := some { limits := none, requests := some [("cpu", "NaN")] } }

/-- A pod spec whose only container requests "NaN" CPUs. -/
def specC8 : PodSpec := { containers := [contC8], node_selector := none }

/-- The record extraction produces from `specC8`: its `total_cores` is NaN. -/
def objC8ex : ExtractedAndTaggedObject :=
  { object_name := "o", «namespace» := "n", type_of := "pod", containers := "c",
    node_selectors := "None", node_selector_check := false, qos_check := true,
    image_check := false, image_url := "img", total_cores := F32.nan, total_items := 1 }

/-- Claim C8: a NaN `total_cores` is reachable — the CPU quantity "NaN"
parses successfully as a float, and extraction then builds a record whose
`total_cores` is NaN — and on such a record the sort comparator's
`partial_cmp(..).unwrap()` receives `none` (a panic); whereas when no
record's `total_cores` is NaN every comparison a sort can make is
defined. -/
theorem claim_C8_nan_comparator_panics :
    convert_quantity_to_int "NaN" = .ok F32.nan ∧
    extract_containers_and_info "o" "n" "pod" specC8 1 = .ok [objC8ex] ∧
    sortCmp objC8nan objC8fin = none ∧
    (∀ l : List ExtractedAndTaggedObject, (∀ r ∈ l, r.total_cores ≠ F32.nan) →
      ∀ a ∈ l, ∀ b ∈ l, (sortCmp a b).isSome = true) := by
  refine ⟨rfl, rfl, rfl, ?_⟩
  intro l hn a ha b hb
  cases h1 : a.total_cores with
  | nan => exact absurd h1 (hn a ha)
  | num qa =>
    cases h2 : b.total_cores with
    | nan => exact absurd h2 (hn b hb)
    | num qb =>
      rw [sortCmp, h1, h2]
      rfl

/-- Witness for C8's panic-freedom half at a concrete NaN-free list. -/
theorem claim_C8_nan_comparator_panics_witness :
    (sortCmp objC8fin objC8fin).isSome = true :=
  claim_C8_nan_comparator_panics.2.2.2 [objC8fin] (by decide) objC8fin
    (List.mem_singleton.2 rfl) objC8fin (List.mem_singleton.2 rfl)

/-- A container with no image reference. -/
def contNoImage : Container := { name := "c1", image := none, resources := none }

/-- A pod spec whose only container lacks an image. -/
def specC4 : PodSpec := { containers := [contNoImage], node_selector := none }

/-- Counterexample to C4 as stated: extraction of a container with no
image PANICS (`container.image.unwrap()`, src/main.rs line 301); it does
not return an `Err` value. -/
theorem claim_C4_counterexample :
    extract_containers_and_info "o" "n" "pod" specC4 1 = .panicked ∧
    (extract_containers_and_info "o" "n" "pod" specC4 1).isErr = false :=
  ⟨rfl, rfl⟩

/-- Claim C4 (amended): extraction with an image-less container never
silently defaults — it never returns `Ok`; and when the image-less
container is first (so it is reached), extraction panics on the `unwrap`
rather than returning an `Err`. -/
theorem claim_C4_amended_no_image_never_ok (name ns t : String) (spec : PodSpec)
    (replicas : Int) (h : ∃ c ∈ spec.containers, c.image = none) :
    (extract_containers_and_info name ns t spec replicas).isOk = false ∧
    (∀ c rest, spec.containers = c :: rest → c.image = none →
      extract_containers_and_info name ns t spec replicas = .panicked) := by
  constructor
  · exact extractList_not_ok name ns t _ _ replicas spec.containers h
  · intro c rest hcr himg
    have h2 : extract_containers_and_info name ns t spec replicas =
        extractList name ns t spec.node_selector.isSome
          (match spec.node_selector with
            | some node_selector => formatMap node_selector
            | none => "None") replicas spec.containers := rfl
    rw [h2, hcr]
    exact extractList_first_none name ns t _ _ replicas c rest himg

/-- Witness for the amended C4 at a concrete image-less pod spec. -/
theorem claim_C4_amended_no_image_never_ok_witness :
    (extract_containers_and_info "o" "n" "pod" specC4 1).isOk = false ∧
    extract_containers_and_info "o" "n" "pod" specC4 1 = .panicked := by
  have h := claim_C4_amended_no_image_never_ok "o" "n" "pod" specC4 1
    ⟨contNoImage, List.mem_singleton.2 rfl, rfl⟩
  exact ⟨h.1, h.2 contNoImage [] rfl rfl⟩

/-- A pod with no spec: `process_pod` fails on it. -/
def podNoSpec : Pod :=
  { metadata := { name := some "bad", «namespace» := some "n", owner_references := none },
    spec := none }

/-- A well-formed container. -/
def contGood : Container := { name := "app", image := some "img", resources := none }

/-- A well-formed pod spec. -/
def specGood : PodSpec := { containers := [contGood], node_selector := none }

/-- A pod whose extraction succeeds. -/
def podGood : Pod :=
  { metadata := { name := some "good", «namespace» := some "n", owner_references := none },
    spec := some specGood }

/-- Counterexample to C5 as stated: in a run where one pod's extraction
fails (missing spec) while another pod's succeeds, the run does NOT
complete with the successful pod's records — the `?` on src/main.rs line
110 propagates the error and the whole run aborts. -/
theorem claim_C5_counterexample :
    (process_pod podGood).isOk = true ∧
    (runReport [[podNoSpec, podGood]] false).isOk = false ∧
    runMain [[podNoSpec, podGood]] = .err "No pod spec for pod bad" :=
  ⟨rfl, rfl, rfl⟩

/-- Claim C5 (amended): whenever any workload's extraction fails, the whole
run fails — `main` propagates the first per-namespace error and reports
nothing, instead of skipping only the failing unit. -/
theorem claim_C5_amended_run_aborts (namespaces : List (List Pod)) (df : Bool)
    (h : ∃ ns ∈ namespaces, ∃ p ∈ ns, (process_pod p).isOk = false) :
    (runReport namespaces df).isOk = false := by
  obtain ⟨ns, hns, p, hp, hpnok⟩ := h
  have h1 : (processNamespace ns).isOk = false := by
    rw [processNamespace, RustResult.isOk_mapR]
    exact collectResults_not_ok _ ⟨process_pod p, List.mem_map.2 ⟨p, hp, rfl⟩, hpnok⟩
  rw [runReport, RustResult.isOk_mapR, runMain, RustResult.isOk_mapR]
  exact collectResults_not_ok _ ⟨processNamespace ns, List.mem_map.2 ⟨ns, hns, rfl⟩, h1⟩

/-- Witness for the amended C5 at a concrete two-pod run. -/
theorem claim_C5_amended_run_aborts_witness :
    (runReport [[podNoSpec, podGood]] true).isOk = false :=
  claim_C5_amended_run_aborts [[podNoSpec, podGood]] true
    ⟨[podNoSpec, podGood], List.mem_singleton.2 rfl, podNoSpec,
      List.mem_cons_self podNoSpec [podGood], rfl⟩

/-- The same pod with its metadata name replaced. -/
def withPodName (pod : Pod) (n : String) : Pod :=
  { pod with metadata := { pod.metadata with name := some n } }

/-- Claim C10: a pod with no metadata name is processed as if it were
named "no_pod_name" (never a failure from the missing name); a pod with
owner references yields records named by the `'|'`-joined owner names;
only an ownerless pod gets the synthetic `pod:<name>` form. -/
theorem claim_C10_pod_name_owners (pod : Pod) :
    (pod.metadata.name = none →
      process_pod pod = process_pod (withPodName pod "no_pod_name")) ∧
    (∀ (refs : List String) (l : List ExtractedAndTaggedObject),
      pod.metadata.owner_references = some refs → process_pod pod = .ok l →
      l.all (fun r => r.object_name == barJoin refs) = true) ∧
    (∀ l : List ExtractedAndTaggedObject,
      pod.metadata.owner_references = none → process_pod pod = .ok l →
      l.all (fun r => r.object_name ==
        "pod:" ++ pod.metadata.name.getD "no_pod_name") = true) := by
  refine ⟨?_, ?_, ?_⟩
  · intro h
    simp [process_pod, withPodName, h]
  · intro refs l href hok
    cases hspec : pod.spec with
    | none =>
      rw [process_pod.eq_def, hspec] at hok
      exact absurd hok (by simp)
    | some pod_spec =>
      cases hns : pod.metadata.«namespace» with
      | none =>
        rw [process_pod.eq_def, hspec] at hok
        simp only [hns] at hok
        exact absurd hok (by simp)
      | some ns =>
        rw [process_pod.eq_def, hspec] at hok
        simp only [hns, href] at hok
        have hobj := extractList_object_name (barJoin refs) ns "pod" _ _ 1
          pod_spec.containers l hok
        rw [List.all_eq_true]
        intro r hr
        simp [hobj r hr]
  · intro l href hok
    cases hspec : pod.spec with
    | none =>
      rw [process_pod.eq_def, hspec] at hok
      exact absurd hok (by simp)
    | some pod_spec =>
      cases hns : pod.metadata.«namespace» with
      | none =>
        rw [process_pod.eq_def, hspec] at hok
        simp only [hns] at hok
        exact absurd hok (by simp)
      | some ns =>
        rw [process_pod.eq_def, hspec] at hok
        simp only [hns, href] at hok
        have hobj := extractList_object_name ("pod:" ++ pod.metadata.name.getD "no_pod_name")
          ns "pod" _ _ 1 pod_spec.containers l hok
        rw [List.all_eq_true]
        intro r hr
        simp [hobj r hr]

/-- A nameless, ownerless pod with a good spec. -/
def podC10 : Pod :=
  { metadata := { name := none, «namespace» := some "n", owner_references := none },
    spec := some specGood }

/-- Metadata with two owner references. -/
def metaC10b : ObjectMeta :=
  { name := some "x", «namespace» := some "n", owner_references := some ["r1", "r2"] }

/-- A pod with two owner references. -/
def podC10b : Pod := { metadata := metaC10b, spec := some specGood }

/-- The record `process_pod` produces from `podC10`. -/
def objC10 : ExtractedAndTaggedObject :=
  { object_name := "pod:no_pod_name", «namespace» := "n", type_of := "pod",
    containers := "app", node_selectors := "None", node_selector_check := false,
    qos_check := false, image_check := false, image_url := "img",
    total_cores := F32.num 0, total_items := 1 }

/-- The record `process_pod` produces from `podC10b`. -/
def objC10b : ExtractedAndTaggedObject :=
  { objC10 with object_name := "r1|r2" }

/-- Witness for C10: all three parts at concrete pods. -/
theorem claim_C10_pod_name_owners_witness :
    process_pod podC10 = process_pod (withPodName podC10 "no_pod_name") ∧
    ([objC10b].all (fun r => r.object_name == barJoin ["r1", "r2"])) = true ∧
    ([objC10].all (fun r => r.object_name ==
      "pod:" ++ podC10.metadata.name.getD "no_pod_name")) = true :=
  ⟨(claim_C10_pod_name_owners podC10).1 rfl,
   (claim_C10_pod_name_owners podC10b).2.1 ["r1", "r2"] [objC10b] rfl (by decide),
   (claim_C10_pod_name_owners podC10).2.2 [objC10] rfl (by decide)⟩
